import Mathlib

/-!
Verification of the strike/expiration selection algorithm of the
options-symbol-finder program, shallowly embedded from
`src/options-symbol-finder.py`.

The embedding models:
* `find_expiration_date` (lines 51-80): stable sort of the expiration
  chain by `daysToExpiration`, first entry meeting the minimum, else the
  furthest-out entry, `none` on empty input;
* `_wait_for_market_settlement` (lines 180-218): the pure
  delay-computation core, with `none` standing for a failure to determine
  exchange-local time (the `except` path, which performs no wait);
* `get_option_symbols` (lines 220-362): strike extraction from the chain
  maps, reference-price fallback, target-strike derivation via `int()`
  truncation, availability filtering, and symbol collection, plus the
  `except` path returning a dictionary lacking the `strikes` key;
* `get_option_symbols_for_multiple_symbols` (lines 364-403): the batch
  loop with per-symbol skip on failure.

Python floats at integer strike boundaries are modelled by `ℚ`; Python
`int()` truncation toward zero by `intTrunc`.
-/

namespace OptionsFinder

/-- One entry of the provider's expiration chain:
`{'expirationDate': ..., 'daysToExpiration': ...}`. -/
structure ExpirationEntry where
  expirationDate : String
  daysToExpiration : Int
deriving DecidableEq, Repr

/-- Embeds `find_expiration_date` (lines 62-76 of the source), applied to an
already-fetched expiration chain.  Python's `sorted(..., key=...)` is a
stable sort, here `List.insertionSort` (also stable, with the same
sorted-by-key result); the scan is `List.find?`; the fallback
`sorted_chain[-1]` is `getLast?`. -/
def find_expiration_date (chain : List ExpirationEntry) (days_to_expiration : Int) :
    Option String :=
  if chain.isEmpty then none
  else
    match (chain.insertionSort
        (fun a b => a.daysToExpiration ≤ b.daysToExpiration)).find?
        (fun e => days_to_expiration ≤ e.daysToExpiration) with
    | some e => some e.expirationDate
    | none =>
      ((chain.insertionSort
        (fun a b => a.daysToExpiration ≤ b.daysToExpiration)).getLast?).map
        (fun e => e.expirationDate)

/-- One contract entry of an option-chain strike row:
`{'putCall': ..., 'symbol': ...}`. -/
structure OptionEntry where
  putCall : String
  symbol : String
deriving DecidableEq, Repr

/-- A per-expiration strike map, as iterated by
`for strike, options in strikes.items()`: strike rows in dict insertion
order, the strike key already parsed by `float(strike)`. -/
abbrev StrikeMap := List (ℚ × List OptionEntry)

/-- The chain snapshot returned by `get_all_option_chains`: the optional
embedded `underlyingPrice` field and the optional per-side expiration-date
maps (`none` models a missing key, checked by `'callExpDateMap' in all_chains`). -/
structure Chain where
  underlyingPrice : Option ℚ
  callExpDateMap : Option (List (String × StrikeMap))
  putExpDateMap : Option (List (String × StrikeMap))
deriving DecidableEq, Repr

/-- Python `int()` truncation toward zero on a rational. -/
def intTrunc (q : ℚ) : Int :=
  if 0 ≤ q then ⌊q⌋ else ⌈q⌉

/-- Strike extraction (lines 276-297): append every strike key, over all
expiration keys, in iteration order. -/
def extractStrikes (m : List (String × StrikeMap)) : List ℚ :=
  m.foldl (fun acc entry => entry.2.foldl (fun acc2 row => acc2 ++ [row.1]) acc) []

/-- All call-side strikes of the chain, sorted (`call_strikes.sort()`,
line 300). -/
def chain_call_strikes (chain : Chain) : List ℚ :=
  (extractStrikes (chain.callExpDateMap.getD [])).insertionSort (fun a b => a ≤ b)

/-- All put-side strikes of the chain, sorted (`put_strikes.sort()`,
line 301). -/
def chain_put_strikes (chain : Chain) : List ℚ :=
  (extractStrikes (chain.putExpDateMap.getD [])).insertionSort (fun a b => a ≤ b)

/-- Reference-price resolution (lines 262-267): the regular-hours price
sample if strictly positive, else `all_chains.get('underlyingPrice', 0)`. -/
def resolved_underlying_price (chain : Chain) (regular_hours_price : ℚ) : ℚ :=
  if regular_hours_price ≤ 0 then chain.underlyingPrice.getD 0 else regular_hours_price

/-- `round_down_strike = int(underlying_price)` (line 304). -/
def round_down_strike (underlying_price : ℚ) : Int :=
  intTrunc underlying_price

/-- `round_up_strike = round_down_strike + 1` (line 305). -/
def round_up_strike (underlying_price : ℚ) : Int :=
  round_down_strike underlying_price + 1

/-- Target call strikes (lines 308-311). -/
def target_call_strikes (underlying_price : ℚ) : List Int :=
  [round_down_strike underlying_price, round_down_strike underlying_price - 1]

/-- Target put strikes (lines 314-317). -/
def target_put_strikes (underlying_price : ℚ) : List Int :=
  [round_up_strike underlying_price, round_up_strike underlying_price + 1]

/-- The availability filter (lines 322-323): keep the target strikes whose
value occurs among the side's available strikes (Python `int in list-of-float`
membership is numeric equality). -/
def filter_available (targets : List Int) (avail : List ℚ) : List Int :=
  targets.filter (fun s => (s : ℚ) ∈ avail)

/-- `selected_call_strikes` (line 322). -/
def selected_call_strikes (chain : Chain) (regular_hours_price : ℚ) : List Int :=
  filter_available (target_call_strikes (resolved_underlying_price chain regular_hours_price))
    (chain_call_strikes chain)

/-- `selected_put_strikes` (line 323). -/
def selected_put_strikes (chain : Chain) (regular_hours_price : ℚ) : List Int :=
  filter_available (target_put_strikes (resolved_underlying_price chain regular_hours_price))
    (chain_put_strikes chain)

/-- Symbol collection (lines 336-356): iterate the side's expiration map in
chain order; for each strike row whose strike is among the selected strikes,
append the symbol of the first contract entry whose `putCall` matches the
side, if any. -/
def collectSymbols (m : List (String × StrikeMap)) (selected : List Int)
    (side : String) : List String :=
  m.foldl (fun acc entry =>
    entry.2.foldl (fun acc2 row =>
      if ∃ s ∈ selected, ((s : ℚ) = row.1) then
        match row.2.find? (fun o => o.putCall == side) with
        | some o => acc2 ++ [o.symbol]
        | none => acc2
      else acc2) acc) []

/-- The dictionary returned by `get_option_symbols`.  The success path sets
the `'strikes'` key (modelled by `some`); the `except` path (lines 360-362)
returns `{'calls': [], 'puts': []}` with no `'strikes'` key (`none`). -/
structure OptionSymbolsDict where
  calls : List String
  puts : List String
  strikes : Option (List Int × List Int)
deriving DecidableEq, Repr

/-- The success path of `get_option_symbols` (lines 248-358), as a function
of the fetched chain snapshot and the regular-hours price sample
(`get_regular_hours_price` returns `0` on failure). -/
def get_option_symbols (chain : Chain) (regular_hours_price : ℚ) : OptionSymbolsDict :=
  { calls := collectSymbols (chain.callExpDateMap.getD [])
      (selected_call_strikes chain regular_hours_price) "CALL"
    puts := collectSymbols (chain.putExpDateMap.getD [])
      (selected_put_strikes chain regular_hours_price) "PUT"
    strikes := some (selected_call_strikes chain regular_hours_price,
      selected_put_strikes chain regular_hours_price) }

/-- `get_option_symbols` with its surrounding `try/except`: an exception
anywhere in the body yields `{'calls': [], 'puts': []}` (lines 360-362),
which lacks the `'strikes'` key. -/
def get_option_symbols_caught (fetched : Except Unit (Chain × ℚ)) : OptionSymbolsDict :=
  match fetched with
  | .ok (chain, price) => get_option_symbols chain price
  | .error _ => { calls := [], puts := [], strikes := none }

/-- An exchange-local moment, as read by `_wait_for_market_settlement`
(lines 194-196): the weekday index (`0` = Monday) and the local time of day
in seconds (rationals allow the microsecond component of `now_et.time()`). -/
structure LocalNow where
  weekday : Nat
  secondsOfDay : ℚ
deriving DecidableEq, Repr

/-- Seconds of day at `market_opens = time(9, 30, 0)` (line 200). -/
def marketOpensSec : ℚ := 34200

/-- Seconds of day at `settlement_time = time(9, 31, 0)` (line 201). -/
def settlementTimeSec : ℚ := 34260

/-- The pure core of `_wait_for_market_settlement` (lines 180-218): the
duration the gate sleeps.  `none` models the `except` path (failure to
determine the exchange-local time), where no wait happens.  On a weekday
inside `[9:30:00, 9:31:00)` the wait is the remaining time until 9:31:00,
guarded by `if wait_seconds > 0` (line 210); otherwise zero. -/
def settlementDelay : Option LocalNow → ℚ
  | none => 0
  | some now =>
    if now.weekday < 5 then
      if marketOpensSec ≤ now.secondsOfDay ∧ now.secondsOfDay < settlementTimeSec then
        let wait_seconds := settlementTimeSec - now.secondsOfDay
        if 0 < wait_seconds then wait_seconds else 0
      else 0
    else 0

/-- The collaborators `get_option_symbols_for_multiple_symbols` calls per
symbol: `find_expiration_date` (which returns `None` on any internal
failure) and `get_option_symbols`, whose body may raise (modelled by
`Except`, the raise being caught by the loop's `except` clause). -/
structure BatchEnv where
  find_expiration : String → Option String
  fetch_symbols : String → String → Except Unit OptionSymbolsDict

/-- One iteration of the batch loop (lines 378-401) for one symbol:
`none` when the symbol is skipped (`continue`), `some` with the dictionary
stored into the aggregate otherwise.  Skips happen when no expiration date
is found (Python falsiness of `None` or `''`), when the body raises, or
when both symbol lists are empty. -/
def processSymbol (env : BatchEnv) (symbol : String) : Option OptionSymbolsDict :=
  match env.find_expiration symbol with
  | none => none
  | some expiration_date =>
    if expiration_date.isEmpty then none
    else
      match env.fetch_symbols symbol expiration_date with
      | .error _ => none
      | .ok option_symbols =>
        if option_symbols.calls.isEmpty ∧ option_symbols.puts.isEmpty then none
        else some option_symbols

/-- Insertion into `all_option_symbols`, with Python dict semantics:
replace in place when the key exists, else append. -/
def dictInsert (d : List (String × OptionSymbolsDict)) (k : String)
    (v : OptionSymbolsDict) : List (String × OptionSymbolsDict) :=
  if d.any (fun p => p.1 == k) then
    d.map (fun p => if p.1 == k then (k, v) else p)
  else d ++ [(k, v)]

/-- Embeds `get_option_symbols_for_multiple_symbols` (lines 364-403): fold
over the symbols in order, skipping failures. -/
def get_option_symbols_for_multiple_symbols (env : BatchEnv) (symbols : List String) :
    List (String × OptionSymbolsDict) :=
  symbols.foldl (fun acc symbol =>
    match processSymbol env symbol with
    | none => acc
    | some option_symbols => dictInsert acc symbol option_symbols) []

/-! Concrete inputs used to instantiate the universally quantified theorems
below on executable data. -/

/-- A small chain: call strikes 630 and 631, put strikes 631 and 632, in
ascending dict order, embedded underlying price 630.25. -/
def exampleChain : Chain :=
  { underlyingPrice := some (mkRat 2521 4)
    callExpDateMap := some [("2024-01-05:0",
      [(630, [⟨"CALL", "C630"⟩]), (631, [⟨"CALL", "C631"⟩])])]
    putExpDateMap := some [("2024-01-05:0",
      [(631, [⟨"PUT", "P631"⟩]), (632, [⟨"PUT", "P632"⟩])])] }

/-- A chain with no embedded price and a single put strike at 1.0,
low enough to be caught by the put targets derived from a zero price. -/
def lowStrikeChain : Chain :=
  { underlyingPrice := none
    callExpDateMap := none
    putExpDateMap := some [("2024-01-05:0", [(1, [⟨"PUT", "P1"⟩])])] }

/-- A chain whose only embedded price is positive, for the fallback tests;
strikes 99, 100, 101, 102 on both sides. -/
def fallbackChain : Chain :=
  { underlyingPrice := some 100
    callExpDateMap := some [("2024-01-05:0",
      [(99, [⟨"CALL", "C99"⟩]), (100, [⟨"CALL", "C100"⟩]),
       (101, [⟨"CALL", "C101"⟩]), (102, [⟨"CALL", "C102"⟩])])]
    putExpDateMap := some [("2024-01-05:0",
      [(99, [⟨"PUT", "P99"⟩]), (100, [⟨"PUT", "P100"⟩]),
       (101, [⟨"PUT", "P101"⟩]), (102, [⟨"PUT", "P102"⟩])])] }

/-- A chain whose strikes all exceed 2, on both sides. -/
def highStrikeChain : Chain :=
  { underlyingPrice := none
    callExpDateMap := some [("2024-01-05:0", [(3, [⟨"CALL", "C3"⟩])])]
    putExpDateMap := some [("2024-01-05:0", [(3, [⟨"PUT", "P3"⟩])])] }

/-- A batch environment where only the symbol "BAD" fails (no expiration
date is found for it) and every other symbol succeeds. -/
def exampleBatchEnv : BatchEnv :=
  { find_expiration := fun symbol => if symbol == "BAD" then none else some "2024-01-05"
    fetch_symbols := fun _ _ =>
      .ok { calls := ["C630"], puts := ["P631"], strikes := some ([630], [631]) } }

/-- An expiration chain sample: days 6, 3, 6, 1 with distinct dates. -/
def exampleEntries : List ExpirationEntry :=
  [⟨"2024-01-12", 6⟩, ⟨"2024-01-09", 3⟩, ⟨"2024-01-12b", 6⟩, ⟨"2024-01-07", 1⟩]

/-- The symbol picked from one strike row by the rebuild loop, when the row's
strike is among the selected targets: the first contract entry on the
matching side, if any. -/
def pickSymbol (selected : List Int) (side : String) (row : ℚ × List OptionEntry) :
    Option String :=
  if ∃ s ∈ selected, ((s : ℚ) = row.1) then
    (row.2.find? (fun o => o.putCall == side)).map (fun o => o.symbol)
  else none

/-- C1: for every strictly positive reference price, the target call strikes
are the ordered pair `[⌊p⌋, ⌊p⌋ - 1]` and the target put strikes are
`[⌊p⌋ + 1, ⌊p⌋ + 2]`; `int()` truncation agrees with the floor on positive
prices, so an integer-valued price does not shift the anchor. -/
theorem target_strikes_of_pos (p : ℚ) (h : 0 < p) :
    target_call_strikes p = [⌊p⌋, ⌊p⌋ - 1] ∧
    target_put_strikes p = [⌊p⌋ + 1, ⌊p⌋ + 2] := by
  have ht : intTrunc p = ⌊p⌋ := by simp [intTrunc, le_of_lt h]
  constructor
  · simp [target_call_strikes, round_down_strike, ht]
  · simp only [target_put_strikes, round_up_strike, round_down_strike, ht]
    norm_num
    omega

/-- Instance of `target_strikes_of_pos` at the integer-valued price 630:
call targets `[630, 629]`, put targets `[631, 632]`. -/
theorem target_strikes_of_pos_witness :
    target_call_strikes 630 = [630, 629] ∧ target_put_strikes 630 = [631, 632] := by
  have h := target_strikes_of_pos 630 (by norm_num)
  have hf : ⌊(630 : ℚ)⌋ = 630 := by norm_num
  rw [hf] at h
  norm_num at h
  exact h

/-- C2: the selected strikes on each side are an order-preserving sublist of
the target list, consisting exactly of those targets present among the
side's actually-available strikes, with at most two entries; they are what
the returned dictionary stores under `'strikes'`. -/
theorem selected_strikes_spec (chain : Chain) (p : ℚ) :
    List.Sublist (selected_call_strikes chain p)
      (target_call_strikes (resolved_underlying_price chain p)) ∧
    List.Sublist (selected_put_strikes chain p)
      (target_put_strikes (resolved_underlying_price chain p)) ∧
    (∀ s : Int, s ∈ selected_call_strikes chain p ↔
      s ∈ target_call_strikes (resolved_underlying_price chain p) ∧
        (s : ℚ) ∈ extractStrikes (chain.callExpDateMap.getD [])) ∧
    (∀ s : Int, s ∈ selected_put_strikes chain p ↔
      s ∈ target_put_strikes (resolved_underlying_price chain p) ∧
        (s : ℚ) ∈ extractStrikes (chain.putExpDateMap.getD [])) ∧
    (selected_call_strikes chain p).length ≤ 2 ∧
    (selected_put_strikes chain p).length ≤ 2 ∧
    (get_option_symbols chain p).strikes =
      some (selected_call_strikes chain p, selected_put_strikes chain p) := by
  refine ⟨List.filter_sublist _, List.filter_sublist _, ?_, ?_, ?_, ?_, rfl⟩
  · intro s
    simp [selected_call_strikes, filter_available, chain_call_strikes, List.mem_filter,
      List.mem_insertionSort]
  · intro s
    simp [selected_put_strikes, filter_available, chain_put_strikes, List.mem_filter,
      List.mem_insertionSort]
  · calc (selected_call_strikes chain p).length
        ≤ (target_call_strikes (resolved_underlying_price chain p)).length :=
          List.length_filter_le _ _
      _ = 2 := rfl
  · calc (selected_put_strikes chain p).length
        ≤ (target_put_strikes (resolved_underlying_price chain p)).length :=
          List.length_filter_le _ _
      _ = 2 := rfl

/-- C7: the settlement gate returns the remaining duration until 9:31:00 on
a weekday inside the half-open window `[9:30:00, 9:31:00)`, and zero in
every other case, including when the exchange-local time cannot be
determined. -/
theorem settlement_delay_spec :
    (∀ now : LocalNow, now.weekday < 5 → marketOpensSec ≤ now.secondsOfDay →
      now.secondsOfDay < settlementTimeSec →
      settlementDelay (some now) = settlementTimeSec - now.secondsOfDay) ∧
    (∀ now : LocalNow,
      ¬(now.weekday < 5 ∧ marketOpensSec ≤ now.secondsOfDay ∧
        now.secondsOfDay < settlementTimeSec) →
      settlementDelay (some now) = 0) ∧
    settlementDelay none = 0 := by
  refine ⟨?_, ?_, rfl⟩
  · intro now hw hlo hhi
    have hpos : 0 < settlementTimeSec - now.secondsOfDay := by linarith
    simp [settlementDelay, hw, hlo, hhi, hpos]
  · intro now hnot
    by_cases hw : now.weekday < 5
    · by_cases hwin : marketOpensSec ≤ now.secondsOfDay ∧ now.secondsOfDay < settlementTimeSec
      · exact absurd ⟨hw, hwin⟩ hnot
      · simp [settlementDelay, hw, hwin]
    · simp [settlementDelay, hw]

/-- Instances of `settlement_delay_spec`: 45 seconds remain at weekday
09:30:15; zero at weekday 09:29:59 and 09:31:00 and on a weekend at
09:30:15. -/
theorem settlement_delay_spec_witness :
    settlementDelay (some ⟨1, 34215⟩) = 45 ∧
    settlementDelay (some ⟨1, 34199⟩) = 0 ∧
    settlementDelay (some ⟨1, 34260⟩) = 0 ∧
    settlementDelay (some ⟨5, 34215⟩) = 0 := by
  refine ⟨?_, ?_, ?_, ?_⟩
  · have h := settlement_delay_spec.1 ⟨1, 34215⟩ (by norm_num)
      (by norm_num [marketOpensSec]) (by norm_num [settlementTimeSec])
    rw [h]
    norm_num [settlementTimeSec]
  · exact settlement_delay_spec.2.1 ⟨1, 34199⟩ (by norm_num [marketOpensSec])
  · exact settlement_delay_spec.2.1 ⟨1, 34260⟩ (by norm_num [settlementTimeSec])
  · exact settlement_delay_spec.2.1 ⟨5, 34215⟩ (by norm_num)

/-- C9: strike selection is a deterministic function of the chain snapshot
and the price sample: identical inputs yield identical outputs. -/
theorem select_strikes_deterministic (chain1 chain2 : Chain) (p1 p2 : ℚ)
    (hc : chain1 = chain2) (hp : p1 = p2) :
    get_option_symbols chain1 p1 = get_option_symbols chain2 p2 := by
  rw [hc, hp]

/-- Instance of `select_strikes_deterministic` on a concrete chain. -/
theorem select_strikes_deterministic_witness :
    get_option_symbols exampleChain 630 = get_option_symbols exampleChain 630 :=
  select_strikes_deterministic exampleChain exampleChain 630 630 rfl rfl

/-- C10: the success path of `get_option_symbols` always populates the
`'strikes'` key (with the selected call and put strikes), while the
exception path returns exactly `{'calls': [], 'puts': []}` with no
`'strikes'` key. -/
theorem result_shape (chain : Chain) (p : ℚ) (e : Unit) :
    (get_option_symbols_caught (.ok (chain, p))).strikes =
      some (selected_call_strikes chain p, selected_put_strikes chain p) ∧
    get_option_symbols_caught (.error e) =
      { calls := [], puts := [], strikes := none } :=
  ⟨rfl, rfl⟩

/-- The output of `get_option_symbols` depends on the price sample only
through the resolved reference price. -/
theorem get_option_symbols_congr {chain : Chain} {p q : ℚ}
    (h : resolved_underlying_price chain p = resolved_underlying_price chain q) :
    get_option_symbols chain p = get_option_symbols chain q := by
  simp [get_option_symbols, selected_call_strikes, selected_put_strikes, h]

/-- C4: a strictly positive price sample is used as-is; a non-positive
sample falls back to the chain's embedded underlying price, and when that
embedded price is strictly positive the whole strike selection behaves as
if it had been the sample. -/
theorem reference_price_resolution (chain : Chain) (sample : ℚ) :
    (0 < sample → resolved_underlying_price chain sample = sample) ∧
    (sample ≤ 0 →
      resolved_underlying_price chain sample = chain.underlyingPrice.getD 0 ∧
      (0 < chain.underlyingPrice.getD 0 →
        get_option_symbols chain sample =
          get_option_symbols chain (chain.underlyingPrice.getD 0))) := by
  constructor
  · intro h
    simp [resolved_underlying_price, not_le.mpr h]
  · intro h
    have h1 : resolved_underlying_price chain sample = chain.underlyingPrice.getD 0 := by
      simp [resolved_underlying_price, h]
    refine ⟨h1, fun hpos => ?_⟩
    apply get_option_symbols_congr
    rw [h1]
    simp [resolved_underlying_price, not_le.mpr hpos]

/-- Instance of `reference_price_resolution`: with an unavailable sample
(`0`) and embedded price `100`, the selection anchors on `100`. -/
theorem reference_price_resolution_witness :
    resolved_underlying_price fallbackChain 0 = 100 ∧
    get_option_symbols fallbackChain 0 = get_option_symbols fallbackChain 100 ∧
    resolved_underlying_price fallbackChain 100 = 100 := by
  have h := (reference_price_resolution fallbackChain 0).2 (le_refl 0)
  have hg : fallbackChain.underlyingPrice.getD 0 = 100 := rfl
  rw [hg] at h
  exact ⟨h.1, h.2 (by norm_num),
    (reference_price_resolution fallbackChain 100).1 (by norm_num)⟩

/-- One strike row of the symbol-collection loop appends at most the symbol
of the first matching contract: the inner fold equals a `filterMap`. -/
theorem collect_inner_eq (sel : List Int) (side : String) (rows : StrikeMap) :
    ∀ acc : List String,
      rows.foldl (fun acc2 row =>
        if ∃ s ∈ sel, ((s : ℚ) = row.1) then
          match row.2.find? (fun o => o.putCall == side) with
          | some o => acc2 ++ [o.symbol]
          | none => acc2
        else acc2) acc = acc ++ rows.filterMap (pickSymbol sel side) := by
  induction rows with
  | nil => intro acc; simp
  | cons row rest ih =>
    intro acc
    rw [List.foldl_cons, List.filterMap_cons]
    by_cases hc : ∃ s ∈ sel, ((s : ℚ) = row.1)
    · rw [if_pos hc]
      cases hf : row.2.find? (fun o => o.putCall == side) with
      | none => simp [ih, pickSymbol, hc, hf]
      | some o => simp [ih, pickSymbol, hc, hf]
    · simp [ih, pickSymbol, hc]

/-- The symbol-collection loop flattens the side's map in chain iteration
order and picks the first matching contract per selected strike row. -/
theorem collectSymbols_eq (m : List (String × StrikeMap)) (sel : List Int) (side : String) :
    collectSymbols m sel side =
      ((m.map Prod.snd).flatten).filterMap (pickSymbol sel side) := by
  suffices h : ∀ acc : List String,
      m.foldl (fun acc entry =>
        entry.2.foldl (fun acc2 row =>
          if ∃ s ∈ sel, ((s : ℚ) = row.1) then
            match row.2.find? (fun o => o.putCall == side) with
            | some o => acc2 ++ [o.symbol]
            | none => acc2
          else acc2) acc) acc =
        acc ++ ((m.map Prod.snd).flatten).filterMap (pickSymbol sel side) by
    simpa [collectSymbols] using h []
  induction m with
  | nil => intro acc; simp
  | cons entry rest ih =>
    intro acc
    rw [List.foldl_cons, collect_inner_eq, List.map_cons, List.flatten_cons,
      List.filterMap_append, ih, List.append_assoc]

/-- C6 (amended): the returned symbol sequences follow the chain's per-side
iteration order, not the target-list order; each chain strike row whose
strike is among the selected targets contributes the symbol of its first
contract entry on the matching side. -/
theorem symbol_collection_chain_order (chain : Chain) (p : ℚ) :
    (get_option_symbols chain p).calls =
      (((chain.callExpDateMap.getD []).map Prod.snd).flatten).filterMap
        (pickSymbol (selected_call_strikes chain p) "CALL") ∧
    (get_option_symbols chain p).puts =
      (((chain.putExpDateMap.getD []).map Prod.snd).flatten).filterMap
        (pickSymbol (selected_put_strikes chain p) "PUT") :=
  ⟨collectSymbols_eq _ _ _, collectSymbols_eq _ _ _⟩

/-- C6 (counterexample to the ordering clause): with chain strikes listed in
ascending order `630, 631` and reference price `631.5`, the selected call
strikes are `[631, 630]` (target order) but the symbols come back as
`["C630", "C631"]` (chain order), not `["C631", "C630"]`. -/
theorem symbol_order_counterexample :
    (get_option_symbols exampleChain (mkRat 1263 2)).strikes = some ([631, 630], [632]) ∧
    (get_option_symbols exampleChain (mkRat 1263 2)).calls = ["C630", "C631"] ∧
    (get_option_symbols exampleChain (mkRat 1263 2)).calls ≠ ["C631", "C630"] := by
  refine ⟨by decide, by decide, by decide⟩

/-- `int()` truncation of a non-positive rational is non-positive. -/
theorem intTrunc_nonpos {r : ℚ} (h : r ≤ 0) : intTrunc r ≤ 0 := by
  unfold intTrunc
  split
  · exact Int.floor_nonpos h
  · exact Int.ceil_le.mpr (by exact_mod_cast h)

/-- C5 (amended): when both the price sample and the embedded chain price
are non-positive or absent, strike selection is not a hard failure: it
proceeds with a non-positive anchor, so every selected call strike is ≤ 0
and every selected put strike is ≤ 2; whenever every available strike on a
side exceeds 2 (the typical case), that side's selected strikes and symbol
list are empty. -/
theorem hard_failure_amended (chain : Chain) (sample : ℚ)
    (h1 : sample ≤ 0) (h2 : chain.underlyingPrice.getD 0 ≤ 0) :
    (∀ s ∈ selected_call_strikes chain sample, s ≤ 0) ∧
    (∀ s ∈ selected_put_strikes chain sample, s ≤ 2) ∧
    ((∀ q ∈ extractStrikes (chain.callExpDateMap.getD []), 2 < q) →
      selected_call_strikes chain sample = [] ∧
      (get_option_symbols chain sample).calls = []) ∧
    ((∀ q ∈ extractStrikes (chain.putExpDateMap.getD []), 2 < q) →
      selected_put_strikes chain sample = [] ∧
      (get_option_symbols chain sample).puts = []) := by
  have hr : resolved_underlying_price chain sample = chain.underlyingPrice.getD 0 := by
    simp [resolved_underlying_price, h1]
  have hrle : resolved_underlying_price chain sample ≤ 0 := hr ▸ h2
  have ht : intTrunc (resolved_underlying_price chain sample) ≤ 0 := intTrunc_nonpos hrle
  have hcall : ∀ s ∈ selected_call_strikes chain sample, s ≤ 0 := by
    intro s hs
    have := (List.mem_filter.mp hs).1
    simp only [target_call_strikes, round_down_strike, List.mem_cons,
      List.not_mem_nil, or_false] at this
    rcases this with h | h <;> omega
  have hput : ∀ s ∈ selected_put_strikes chain sample, s ≤ 2 := by
    intro s hs
    have := (List.mem_filter.mp hs).1
    simp only [target_put_strikes, round_up_strike, round_down_strike, List.mem_cons,
      List.not_mem_nil, or_false] at this
    rcases this with h | h <;> omega
  refine ⟨hcall, hput, ?_, ?_⟩
  · intro hall
    have hempty : selected_call_strikes chain sample = [] := by
      rw [List.eq_nil_iff_forall_not_mem]
      intro s hs
      have hle : s ≤ 0 := hcall s hs
      have hmem : (s : ℚ) ∈ chain_call_strikes chain :=
        of_decide_eq_true (List.mem_filter.mp hs).2
      have hmem2 : (s : ℚ) ∈ extractStrikes (chain.callExpDateMap.getD []) := by
        rw [chain_call_strikes] at hmem
        exact (List.mem_insertionSort _).mp hmem
      have h2lt : (2 : ℚ) < (s : ℚ) := hall _ hmem2
      have : (s : ℚ) ≤ 0 := by exact_mod_cast hle
      linarith
    refine ⟨hempty, ?_⟩
    show collectSymbols _ (selected_call_strikes chain sample) "CALL" = []
    rw [hempty, collectSymbols_eq, List.filterMap_eq_nil_iff]
    intro row _
    simp [pickSymbol]
  · intro hall
    have hempty : selected_put_strikes chain sample = [] := by
      rw [List.eq_nil_iff_forall_not_mem]
      intro s hs
      have hle : s ≤ 2 := hput s hs
      have hmem : (s : ℚ) ∈ chain_put_strikes chain :=
        of_decide_eq_true (List.mem_filter.mp hs).2
      have hmem2 : (s : ℚ) ∈ extractStrikes (chain.putExpDateMap.getD []) := by
        rw [chain_put_strikes] at hmem
        exact (List.mem_insertionSort _).mp hmem
      have h2lt : (2 : ℚ) < (s : ℚ) := hall _ hmem2
      have : (s : ℚ) ≤ 2 := by exact_mod_cast hle
      linarith
    refine ⟨hempty, ?_⟩
    show collectSymbols _ (selected_put_strikes chain sample) "PUT" = []
    rw [hempty, collectSymbols_eq, List.filterMap_eq_nil_iff]
    intro row _
    simp [pickSymbol]

/-- Instance of `hard_failure_amended`: zero sample, absent embedded price,
all chain strikes above 2 — nothing is selected. -/
theorem hard_failure_amended_witness :
    (get_option_symbols highStrikeChain 0).calls = [] ∧
    (get_option_symbols highStrikeChain 0).puts = [] := by
  have h := hard_failure_amended highStrikeChain 0 (le_refl 0) (by norm_num [highStrikeChain])
  exact ⟨(h.2.2.1 (by decide)).2, (h.2.2.2 (by decide)).2⟩

/-- C5 (counterexample to the hard-failure clause): with both price sources
unavailable (sample `0`, no embedded price) but a put strike `1.0` listed in
the chain, the code still selects put strike `1` and returns its symbol —
the symbol lists are not both empty. -/
theorem hard_failure_counterexample :
    (get_option_symbols lowStrikeChain 0).puts = ["P1"] ∧
    (get_option_symbols lowStrikeChain 0).puts ≠ [] ∧
    (get_option_symbols lowStrikeChain 0).strikes = some ([], [1]) := by
  refine ⟨by decide, by decide, by decide⟩

/-- The batch fold never inserts an entry under a symbol whose processing
fails, regardless of the accumulator it starts from. -/
theorem batch_foldl_keys {env : BatchEnv} {bad : String}
    (h : processSymbol env bad = none) :
    ∀ (l : List String) (acc : List (String × OptionSymbolsDict)),
      (∀ e ∈ acc, e.1 ≠ bad) →
      ∀ e ∈ l.foldl (fun acc symbol =>
          match processSymbol env symbol with
          | none => acc
          | some option_symbols => dictInsert acc symbol option_symbols) acc,
        e.1 ≠ bad := by
  intro l
  induction l with
  | nil => intro acc hacc e he; exact hacc e he
  | cons s rest ih =>
    intro acc hacc
    rw [List.foldl_cons]
    cases hp : processSymbol env s with
    | none => exact ih acc hacc
    | some v =>
      apply ih
      intro e he
      have hs : s ≠ bad := by
        intro hcontra
        rw [hcontra, h] at hp
        exact Option.noConfusion hp
      have he2 : e ∈ dictInsert acc s v := he
      unfold dictInsert at he2
      by_cases hex : acc.any (fun p => p.1 == s)
      · rw [if_pos hex] at he2
        obtain ⟨x, hx, hxe⟩ := List.mem_map.mp he2
        by_cases hxs : x.1 == s
        · rw [if_pos hxs] at hxe
          rw [← hxe]
          exact hs
        · rw [if_neg hxs] at hxe
          exact hxe ▸ hacc x hx
      · rw [if_neg hex] at he2
        rcases List.mem_append.mp he2 with hl | hr
        · exact hacc e hl
        · rw [List.mem_singleton.mp hr]
          exact hs

/-- C8: the batch orchestrator skips a failing symbol: inserting a symbol
whose processing fails anywhere in the batch leaves the aggregate result
exactly as if the symbol had not been in the list — symbols before and
after it are processed identically — and the failing symbol never appears
among the result's keys. -/
theorem batch_continue_on_failure (env : BatchEnv) (pre post : List String)
    (bad : String) (h : processSymbol env bad = none) :
    get_option_symbols_for_multiple_symbols env (pre ++ bad :: post) =
      get_option_symbols_for_multiple_symbols env (pre ++ post) ∧
    ∀ e ∈ get_option_symbols_for_multiple_symbols env (pre ++ bad :: post),
      e.1 ≠ bad := by
  constructor
  · unfold get_option_symbols_for_multiple_symbols
    rw [List.foldl_append, List.foldl_append, List.foldl_cons, h]
  · exact batch_foldl_keys h (pre ++ bad :: post) [] (by intro e he; cases he)

/-- Instance of `batch_continue_on_failure`: the failing symbol "BAD" in the
middle of a batch changes nothing and is absent from the result. -/
theorem batch_continue_on_failure_witness :
    get_option_symbols_for_multiple_symbols exampleBatchEnv ["A", "BAD", "B"] =
      get_option_symbols_for_multiple_symbols exampleBatchEnv ["A", "B"] :=
  (batch_continue_on_failure exampleBatchEnv ["A"] ["B"] "BAD" (by decide)).1

/-- In a list sorted by `daysToExpiration`, the first entry satisfying a
predicate has a `daysToExpiration` no larger than that of any entry
satisfying it. -/
theorem sorted_find?_min {l : List ExpirationEntry}
    (hs : List.Sorted (fun a b => a.daysToExpiration ≤ b.daysToExpiration) l)
    {p : ExpirationEntry → Bool} {e : ExpirationEntry}
    (hf : l.find? p = some e) :
    ∀ x ∈ l, p x = true → e.daysToExpiration ≤ x.daysToExpiration := by
  induction l with
  | nil => cases hf
  | cons a as ih =>
    intro x hx hpx
    by_cases hpa : p a
    · simp only [List.find?_cons, hpa] at hf
      injection hf with he
      subst he
      rcases List.mem_cons.mp hx with h | h
      · rw [h]
      · exact List.rel_of_sorted_cons hs x h
    · rw [Bool.not_eq_true] at hpa
      simp only [List.find?_cons, hpa] at hf
      rcases List.mem_cons.mp hx with h | h
      · rw [h] at hpx
        rw [hpx] at hpa
        cases hpa
      · exact ih hs.of_cons hf x h hpx

/-- If the first entry found by `p` also satisfies `q`, and failing `p`
forces failing `q`, then it is also the first entry found by `q`. -/
theorem find?_switch {α : Type} {p q : α → Bool} :
    ∀ {l : List α} {e : α}, l.find? p = some e →
      (∀ x, p x = false → q x = false) → q e = true → l.find? q = some e := by
  intro l
  induction l with
  | nil => intro e hf; cases hf
  | cons a as ih =>
    intro e hf himp hqe
    by_cases hpa : p a
    · simp only [List.find?_cons, hpa] at hf
      injection hf with he
      subst he
      simp only [List.find?_cons, hqe]
    · rw [Bool.not_eq_true] at hpa
      simp only [List.find?_cons, hpa] at hf
      have hqa : q a = false := himp a hpa
      simp only [List.find?_cons, hqa]
      exact ih hf himp hqe

/-- `find?` is the head of the filtered list. -/
theorem find?_eq_head?_filter {α : Type} (p : α → Bool) :
    ∀ l : List α, l.find? p = (l.filter p).head? := by
  intro l
  induction l with
  | nil => rfl
  | cons a as ih =>
    by_cases hpa : p a
    · simp only [List.find?_cons, List.filter_cons, hpa, if_true, List.head?_cons]
    · rw [Bool.not_eq_true] at hpa
      simp only [List.find?_cons, List.filter_cons, hpa, Bool.false_eq_true, if_false]
      exact ih

/-- Stability of the sort used by `find_expiration_date`: the entries
carrying one fixed `daysToExpiration` value appear in the sorted list
exactly as they appear in the original list. -/
theorem filter_key_insertionSort (l : List ExpirationEntry) (m : Int) :
    (l.insertionSort (fun a b => a.daysToExpiration ≤ b.daysToExpiration)).filter
        (fun x => x.daysToExpiration == m) =
      l.filter (fun x => x.daysToExpiration == m) := by
  have hsub : List.Sublist (l.filter (fun x => x.daysToExpiration == m))
      (l.insertionSort (fun a b => a.daysToExpiration ≤ b.daysToExpiration)) := by
    apply List.sublist_insertionSort
    · apply List.pairwise_of_forall_mem_list
      intro a ha b hb
      have ha2 : a.daysToExpiration = m := by
        have := (List.mem_filter.mp ha).2
        simpa using this
      have hb2 : b.daysToExpiration = m := by
        have := (List.mem_filter.mp hb).2
        simpa using this
      rw [ha2, hb2]
    · exact List.filter_sublist l
  have hself : (l.filter (fun x => x.daysToExpiration == m)).filter
      (fun x => x.daysToExpiration == m) = l.filter (fun x => x.daysToExpiration == m) :=
    List.filter_eq_self.mpr (fun a ha => (List.mem_filter.mp ha).2)
  have hsub2 : List.Sublist (l.filter (fun x => x.daysToExpiration == m))
      ((l.insertionSort (fun a b => a.daysToExpiration ≤ b.daysToExpiration)).filter
        (fun x => x.daysToExpiration == m)) := by
    rw [← hself]
    exact List.Sublist.filter _ hsub
  have hlen : ((l.insertionSort (fun a b => a.daysToExpiration ≤ b.daysToExpiration)).filter
        (fun x => x.daysToExpiration == m)).length =
      (l.filter (fun x => x.daysToExpiration == m)).length :=
    (List.Perm.filter _ (List.perm_insertionSort _ l)).length_eq
  exact (hsub2.eq_of_length hlen.symm).symm

/-- In a list sorted by `daysToExpiration`, the last entry has the maximum
`daysToExpiration`. -/
theorem sorted_getLast?_max {l : List ExpirationEntry}
    (hs : List.Sorted (fun a b => a.daysToExpiration ≤ b.daysToExpiration) l)
    {e : ExpirationEntry} (hl : l.getLast? = some e) :
    ∀ x ∈ l, x.daysToExpiration ≤ e.daysToExpiration := by
  obtain ⟨ys, rfl⟩ := List.getLast?_eq_some_iff.mp hl
  intro x hx
  rcases List.mem_append.mp hx with hy | hx2
  · exact (List.pairwise_append.mp hs).2.2 x hy e (List.mem_singleton.mpr rfl)
  · rw [List.mem_singleton.mp hx2]

/-- C3: for a non-empty entries list, `find_expiration_date` returns the
expiration date of the entry with the smallest `daysToExpiration` at least
the minimum — the first such entry in original order (stable-sort
tie-break) — or of an entry with the maximum `daysToExpiration` when none
qualifies; it returns `none` exactly when the entries list is empty. -/
theorem find_expiration_date_spec (entries : List ExpirationEntry) (minDays : Int) :
    (find_expiration_date entries minDays = none ↔ entries = []) ∧
    (∀ e0 ∈ entries, minDays ≤ e0.daysToExpiration →
      ∃ e ∈ entries, find_expiration_date entries minDays = some e.expirationDate ∧
        minDays ≤ e.daysToExpiration ∧
        (∀ x ∈ entries, minDays ≤ x.daysToExpiration →
          e.daysToExpiration ≤ x.daysToExpiration) ∧
        entries.find? (fun x => x.daysToExpiration == e.daysToExpiration) = some e) ∧
    ((∀ x ∈ entries, x.daysToExpiration < minDays) → entries ≠ [] →
      ∃ e ∈ entries, find_expiration_date entries minDays = some e.expirationDate ∧
        ∀ x ∈ entries, x.daysToExpiration ≤ e.daysToExpiration) := by
  have hsorted : List.Sorted (fun a b : ExpirationEntry =>
      a.daysToExpiration ≤ b.daysToExpiration)
      (entries.insertionSort (fun a b => a.daysToExpiration ≤ b.daysToExpiration)) := by
    haveI : IsTotal ExpirationEntry (fun a b => a.daysToExpiration ≤ b.daysToExpiration) :=
      ⟨fun a b => Int.le_total a.daysToExpiration b.daysToExpiration⟩
    haveI : IsTrans ExpirationEntry (fun a b => a.daysToExpiration ≤ b.daysToExpiration) :=
      ⟨fun _ _ _ hab hbc => le_trans hab hbc⟩
    exact List.sorted_insertionSort _ entries
  have hperm := List.perm_insertionSort
    (fun a b : ExpirationEntry => a.daysToExpiration ≤ b.daysToExpiration) entries
  refine ⟨?_, ?_, ?_⟩
  · constructor
    · intro hnone
      by_contra hne
      rw [find_expiration_date, if_neg (by simpa [List.isEmpty_iff] using hne)] at hnone
      cases hf : (entries.insertionSort
          (fun a b => a.daysToExpiration ≤ b.daysToExpiration)).find?
          (fun e => minDays ≤ e.daysToExpiration) with
      | some e => rw [hf] at hnone; exact Option.noConfusion hnone
      | none =>
        rw [hf] at hnone
        cases hgl : (entries.insertionSort
            (fun a b => a.daysToExpiration ≤ b.daysToExpiration)).getLast? with
        | some e => rw [hgl] at hnone; exact Option.noConfusion hnone
        | none =>
          have h0 := List.getLast?_eq_none_iff.mp hgl
          exact hne ((h0 ▸ hperm).symm.eq_nil)
    · intro h
      subst h
      rfl
  · intro e0 he0 hq0
    have hne : entries ≠ [] := by
      intro h
      subst h
      cases he0
    obtain ⟨e, hf⟩ : ∃ e, (entries.insertionSort
        (fun a b => a.daysToExpiration ≤ b.daysToExpiration)).find?
        (fun e => minDays ≤ e.daysToExpiration) = some e := by
      cases hf : (entries.insertionSort
          (fun a b => a.daysToExpiration ≤ b.daysToExpiration)).find?
          (fun e => minDays ≤ e.daysToExpiration) with
      | some e => exact ⟨e, rfl⟩
      | none =>
        have := List.find?_eq_none.mp hf e0 ((List.mem_insertionSort _).mpr he0)
        simp only [decide_eq_true_eq] at this
        exact absurd hq0 this
    refine ⟨e, (List.mem_insertionSort _).mp (List.mem_of_find?_eq_some hf), ?_, ?_, ?_, ?_⟩
    · rw [find_expiration_date, if_neg (by simpa [List.isEmpty_iff] using hne), hf]
    · have := List.find?_some hf
      simpa using this
    · intro x hx hqx
      exact sorted_find?_min hsorted hf x ((List.mem_insertionSort _).mpr hx)
        (by simpa using hqx)
    · have hq_sorted : (entries.insertionSort
          (fun a b => a.daysToExpiration ≤ b.daysToExpiration)).find?
          (fun x => x.daysToExpiration == e.daysToExpiration) = some e := by
        apply find?_switch hf
        · intro x hx
          have hxlt : ¬minDays ≤ x.daysToExpiration := by simpa using hx
          have hle : minDays ≤ e.daysToExpiration := by
            have := List.find?_some hf
            simpa using this
          simp only [beq_eq_false_iff_ne, ne_eq]
          omega
        · simp
      calc entries.find? (fun x => x.daysToExpiration == e.daysToExpiration)
          = (entries.filter (fun x => x.daysToExpiration == e.daysToExpiration)).head? :=
            find?_eq_head?_filter _ entries
        _ = ((entries.insertionSort
              (fun a b => a.daysToExpiration ≤ b.daysToExpiration)).filter
              (fun x => x.daysToExpiration == e.daysToExpiration)).head? := by
            rw [filter_key_insertionSort]
        _ = (entries.insertionSort
              (fun a b => a.daysToExpiration ≤ b.daysToExpiration)).find?
              (fun x => x.daysToExpiration == e.daysToExpiration) :=
            (find?_eq_head?_filter _ _).symm
        _ = some e := hq_sorted
  · intro hall hne
    have hfn : (entries.insertionSort
        (fun a b => a.daysToExpiration ≤ b.daysToExpiration)).find?
        (fun e => minDays ≤ e.daysToExpiration) = none := by
      rw [List.find?_eq_none]
      intro x hx
      have := hall x ((List.mem_insertionSort _).mp hx)
      simp only [decide_eq_true_eq]
      omega
    cases hgl : (entries.insertionSort
        (fun a b => a.daysToExpiration ≤ b.daysToExpiration)).getLast? with
    | none =>
      have h0 := List.getLast?_eq_none_iff.mp hgl
      exact absurd ((h0 ▸ hperm).symm.eq_nil) hne
    | some e =>
      have hmem : e ∈ entries.insertionSort
          (fun a b => a.daysToExpiration ≤ b.daysToExpiration) :=
        List.mem_of_mem_getLast? (by rw [hgl]; rfl)
      refine ⟨e, (List.mem_insertionSort _).mp hmem, ?_, ?_⟩
      · rw [find_expiration_date, if_neg (by simpa [List.isEmpty_iff] using hne), hfn, hgl]
        rfl
      · intro x hx
        exact sorted_getLast?_max hsorted hgl x ((List.mem_insertionSort _).mpr hx)

/-- Instance of `find_expiration_date_spec` on the sample entries with
minimum 5 days: a qualifying entry exists, so the result is the first
entry in original order carrying the smallest qualifying day count. -/
theorem find_expiration_date_spec_witness :
    ∃ e ∈ exampleEntries, find_expiration_date exampleEntries 5 = some e.expirationDate ∧
      5 ≤ e.daysToExpiration ∧
      (∀ x ∈ exampleEntries, 5 ≤ x.daysToExpiration →
        e.daysToExpiration ≤ x.daysToExpiration) ∧
      exampleEntries.find? (fun x => x.daysToExpiration == e.daysToExpiration) = some e :=
  (find_expiration_date_spec exampleEntries 5).2.1 ⟨"2024-01-12", 6⟩ (by decide) (by decide)

end OptionsFinder
